import Mathlib

/-!
UART transmit driver (`uart.h`)

A shallow embedding of the polling UART driver of `src/c_prog/uart.h`:

* the three memory-mapped registers `UART_TX`, `UART_RX`, `UART_STATUS` are
  volatile, so every access is an observable event; the embedding records
  them, in program order, in a trace;
* the values the hardware returns on reads of `UART_STATUS` are an input of
  the model: `status k` is what the `k`-th read (counted from 0) returns;
* the busy-wait loop of `uart_putc` may run forever, so it is run with a
  budget of loop iterations; a run that uses up the budget is reported as
  still spinning, together with the hardware state reached so far;
* `char` is a byte; whether plain `char` is signed is left to the C
  implementation, so it is a parameter (`cs`) of the model.
-/

namespace UartDriver

/-! ## Registers and register accesses -/

/-- The object representation of a C `char`: one byte. -/
abbrev Byte := Fin 256

/-- The constant `#define UART_BASE 0x80000000`. -/
def UART_BASE : Nat := 0x80000000

/-- The three registers the header names. -/
inductive Reg where
  | UART_TX
  | UART_RX
  | UART_STATUS
  deriving DecidableEq, Repr

/-- Address of a register: `UART_BASE + 0x00`, `+ 0x04`, `+ 0x08`. -/
def Reg.addr : Reg → Nat
  | .UART_TX => UART_BASE + 0x00
  | .UART_RX => UART_BASE + 0x04
  | .UART_STATUS => UART_BASE + 0x08

/-- The constant `#define UART_TX_READY 0x01`. -/
def UART_TX_READY : Nat := 0x01

/-- One volatile access: a load that returned `v`, or a store of `v`. -/
inductive Access where
  | load (r : Reg) (v : Nat)
  | store (r : Reg) (v : Nat)
  deriving DecidableEq, Repr

/-- Hardware-side state seen by the driver: how many reads of `UART_STATUS`
have happened, and all register accesses so far, oldest first. -/
structure Uart where
  reads : Nat
  trace : List Access
  deriving DecidableEq, Repr

/-- Power-on state: nothing accessed yet. -/
def Uart.init : Uart := ⟨0, []⟩

/-- Result of running a driver function with a budget of poll iterations. -/
inductive Outcome where
  /-- the call returned, leaving the hardware in this state -/
  | returned (u : Uart)
  /-- the budget ran out inside a poll loop; the call has not returned -/
  | spinning (u : Uart)
  /-- the string pointer left the modelled memory (no terminator found) -/
  | fault
  deriving DecidableEq, Repr

/-- Sequencing of C statements: run `k` after a call that returned. -/
def Outcome.andThen : Outcome → (Uart → Outcome) → Outcome
  | .returned u, k => k u
  | .spinning u, _ => .spinning u
  | .fault, _ => .fault

/-! ## C integer conversions -/

/-- Value of a `char` object holding byte `b`; `cs` says whether plain
`char` is signed (two's complement). -/
def charVal (cs : Bool) (b : Byte) : Int :=
  if cs && decide (128 ≤ b.val) then (b.val : Int) - 256 else (b.val : Int)

/-- Conversion of an integer value to `unsigned int` (32 bits). -/
def toUInt (x : Int) : Nat := (x % (2 ^ 32 : Int)).toNat

/-- Conversion of an `int` value to `char`: the low eight bits. -/
def toChar (x : Int) : Byte := ⟨(x % 256).toNat % 256, Nat.mod_lt _ (by decide)⟩

/-- The word `UART_TX = c` stores: `c` converted to `unsigned int`. -/
def txWord (cs : Bool) (c : Byte) : Nat := toUInt (charVal cs c)

/-! ## The driver -/

/-- A read of `UART_STATUS`: the hardware supplies `status u.reads`, seen
through the 32-bit register; the read is recorded. -/
def readStatus (status : Nat → Nat) (u : Uart) : Nat × Uart :=
  let v := status u.reads % 2 ^ 32
  (v, { reads := u.reads + 1, trace := u.trace ++ [Access.load Reg.UART_STATUS v] })

/-- A store to `UART_TX`. -/
def writeTx (w : Nat) (u : Uart) : Uart :=
  { u with trace := u.trace ++ [Access.store Reg.UART_TX w] }

/-- The loop condition `(UART_STATUS & UART_TX_READY) == 0` on the value read. -/
def busy (v : Nat) : Bool := (v &&& UART_TX_READY) == 0

/-- The loop `while ((UART_STATUS & UART_TX_READY) == 0);` with a budget of
`fuel` evaluations of its condition. `returned` means the loop was left. -/
def poll (status : Nat → Nat) : Nat → Uart → Outcome
  | 0, u => .spinning u
  | fuel + 1, u =>
    let r := readStatus status u
    if busy r.1 then poll status fuel r.2 else .returned r.2

/-- The function `uart_putc(c)`: wait for the ready bit, then `UART_TX = c`. -/
def uart_putc (cs : Bool) (status : Nat → Nat) (fuel : Nat) (c : Byte) (u : Uart) : Outcome :=
  (poll status fuel u).andThen fun u1 => .returned (writeTx (txWord cs c) u1)

/-- The function `uart_puts(s)`; the list is the memory from `s` onwards, and
`s++` moves to its tail. Each call of `uart_putc` gets the budget `fuel`. -/
def uart_puts (cs : Bool) (status : Nat → Nat) (fuel : Nat) : List Byte → Uart → Outcome
  | [], _ => .fault
  | b :: rest, u =>
    if charVal cs b = 0 then .returned u
    else
      ((if charVal cs b = 10 then uart_putc cs status fuel (toChar 13) u
        else .returned u).andThen fun u1 =>
        uart_putc cs status fuel b u1).andThen fun u2 =>
          uart_puts cs status fuel rest u2

/-! ## Observations of a trace and reference notions -/

/-- The line-feed byte of the source text. -/
def LF : Byte := 10

/-- The carriage-return byte of the source text. -/
def CR : Byte := 13

/-- The word an access stores to `UART_TX`, if it is such a store. -/
def Access.txStore? : Access → Option Nat
  | .store .UART_TX w => some w
  | _ => none

/-- The words stored to `UART_TX`, in order. -/
def txWords (t : List Access) : List Nat := t.filterMap Access.txStore?

/-- The low eight bits of a word: the part of `UART_TX` that is transmitted. -/
def lowByte (w : Nat) : Byte := ⟨w % 256, Nat.mod_lt _ (by decide)⟩

/-- The bytes handed to the transmitter, in order. -/
def txBytes (t : List Access) : List Byte := (txWords t).map lowByte

/-- The `n` consecutive reads of `UART_STATUS` that start at read number `k`. -/
def statusLoads (status : Nat → Nat) (k n : Nat) : List Access :=
  (List.range n).map fun i => Access.load Reg.UART_STATUS (status (k + i) % 2 ^ 32)

/-- The spec's newline rule as a function on byte sequences: a line feed
becomes carriage return, line feed; any other byte stays as it is. -/
def crlfSpec (s : List Byte) : List Byte :=
  s.flatMap fun b => if b = LF then [CR, LF] else [b]

/-- The calls `uart_putc(c)` for the listed bytes, one after the other. -/
def putcAll (cs : Bool) (status : Nat → Nat) (fuel : Nat) : List Byte → Uart → Outcome
  | [], u => .returned u
  | c :: l, u => (uart_putc cs status fuel c u).andThen (putcAll cs status fuel l)

/-- The ready bit comes up again after every point in time. -/
def EventuallyReady (status : Nat → Nat) : Prop :=
  ∀ k, ∃ j, status (k + j) % 2 = 1

/-- Every store to `UART_TX` in the trace has an access right before it, and
that access is a read of `UART_STATUS` that returned a value with bit 0 set. -/
def Gated (t : List Access) : Prop :=
  ∀ i w, t[i]? = some (Access.store Reg.UART_TX w) →
    0 < i ∧ ∃ v, t[i - 1]? = some (Access.load Reg.UART_STATUS v) ∧ v % 2 = 1

/-- The hardware state an outcome carries, if any. -/
def Outcome.state? : Outcome → Option Uart
  | .returned u => some u
  | .spinning u => some u
  | .fault => none

/-- The register an access goes to. -/
def Access.reg : Access → Reg
  | .load r _ => r
  | .store r _ => r

/-- Whether an access is a store (otherwise it is a load). -/
def Access.isStore : Access → Bool
  | .load _ _ => false
  | .store _ _ => true

/-- The trace `t'` continues the trace `t`, and what it adds are reads of
`UART_STATUS` and stores to `UART_TX` only. -/
def Extends (t t' : List Access) : Prop :=
  ∃ acc, t' = t ++ acc ∧
    ∀ a ∈ acc, (∃ v, a = Access.load Reg.UART_STATUS v) ∨ (∃ w, a = Access.store Reg.UART_TX w)

/-! ## Integer conversions -/

theorem txWord_eq (cs : Bool) (c : Byte) :
    txWord cs c = if cs = true ∧ 128 ≤ c.val then c.val + (2 ^ 32 - 256) else c.val := by
  have hc := c.isLt
  unfold txWord toUInt charVal
  cases cs <;> simp
  · omega
  · split <;> omega

theorem lowByte_txWord (cs : Bool) (c : Byte) : lowByte (txWord cs c) = c := by
  have hc := c.isLt
  apply Fin.ext
  simp only [lowByte, txWord_eq]
  split <;> omega

theorem txWord_lt (cs : Bool) (c : Byte) : txWord cs c < 2 ^ 32 := by
  have hc := c.isLt
  rw [txWord_eq]
  split <;> omega

theorem charVal_eq_zero (cs : Bool) (b : Byte) : charVal cs b = 0 ↔ b = 0 := by
  have hb := b.isLt
  unfold charVal
  rw [Fin.ext_iff]
  cases cs
  · simp
  · simp only [Bool.true_and, decide_eq_true_eq, Fin.val_zero]
    split <;> omega

theorem charVal_eq_ten (cs : Bool) (b : Byte) : charVal cs b = 10 ↔ b = LF := by
  have hb := b.isLt
  unfold charVal LF
  rw [Fin.ext_iff]
  have h10 : ((10 : Byte) : Nat) = 10 := rfl
  rw [h10]
  cases cs
  · simp only [Bool.false_and, Bool.false_eq_true, if_false]
    omega
  · simp only [Bool.true_and, decide_eq_true_eq]
    split <;> omega

theorem toChar_thirteen : toChar 13 = CR := by decide

theorem busy_iff (v : Nat) : busy v = true ↔ v % 2 = 0 := by
  unfold busy UART_TX_READY
  rw [Nat.and_one_is_mod]
  simp

theorem busy_status (status : Nat → Nat) (k : Nat) :
    busy (status k % 2 ^ 32) = true ↔ status k % 2 = 0 := by
  rw [busy_iff]
  omega

/-! ## The poll loop -/

theorem statusLoads_zero (status : Nat → Nat) (k : Nat) : statusLoads status k 0 = [] := rfl

theorem statusLoads_cons (status : Nat → Nat) (k n : Nat) :
    statusLoads status k (n + 1) =
      Access.load Reg.UART_STATUS (status k % 2 ^ 32) :: statusLoads status (k + 1) n := by
  simp only [statusLoads, List.range_succ_eq_map, List.map_cons, List.map_map, Nat.add_zero]
  congr 1
  apply List.map_congr_left
  intro i _
  simp only [Function.comp, Nat.succ_eq_add_one]
  congr 3
  omega

theorem statusLoads_snoc (status : Nat → Nat) (k n : Nat) :
    statusLoads status k (n + 1) =
      statusLoads status k n ++ [Access.load Reg.UART_STATUS (status (k + n) % 2 ^ 32)] := by
  simp [statusLoads, List.range_succ]

theorem statusLoads_length (status : Nat → Nat) (k n : Nat) :
    (statusLoads status k n).length = n := by
  simp [statusLoads]

theorem txWords_append (a b : List Access) : txWords (a ++ b) = txWords a ++ txWords b := by
  simp [txWords]

theorem txWords_statusLoads (status : Nat → Nat) (k n : Nat) :
    txWords (statusLoads status k n) = [] := by
  simp [txWords, statusLoads, List.filterMap_eq_nil_iff, Access.txStore?]

theorem txBytes_append (a b : List Access) : txBytes (a ++ b) = txBytes a ++ txBytes b := by
  simp [txBytes, txWords_append]

/-- While the ready bit stays clear the loop keeps reading. -/
theorem poll_spin (status : Nat → Nat) (n : Nat) (u : Uart)
    (hbusy : ∀ i, i < n → status (u.reads + i) % 2 = 0) :
    poll status n u = .spinning ⟨u.reads + n, u.trace ++ statusLoads status u.reads n⟩ := by
  induction n generalizing u with
  | zero => simp [poll, statusLoads_zero]
  | succ n ih =>
    have h0 : busy (status u.reads % 2 ^ 32) = true :=
      (busy_status status u.reads).2 (by simpa using hbusy 0 (Nat.succ_pos n))
    have hrest : ∀ i, i < n → status ((readStatus status u).2.reads + i) % 2 = 0 := by
      intro i hi
      have := hbusy (i + 1) (Nat.succ_lt_succ hi)
      simpa [readStatus, Nat.add_assoc, Nat.add_comm 1 i] using this
    have hstep := ih (readStatus status u).2 hrest
    simp only [poll]
    rw [show busy (readStatus status u).1 = true from h0, if_pos rfl, hstep]
    simp [readStatus, statusLoads_cons, Nat.add_assoc, Nat.add_comm 1 n]

/-- The loop is left at the first read that shows the ready bit. -/
theorem poll_exit (status : Nat → Nat) (n fuel : Nat) (u : Uart)
    (hbusy : ∀ i, i < n → status (u.reads + i) % 2 = 0)
    (hready : status (u.reads + n) % 2 = 1) (hfuel : n < fuel) :
    poll status fuel u =
      .returned ⟨u.reads + (n + 1), u.trace ++ statusLoads status u.reads (n + 1)⟩ := by
  induction n generalizing u fuel with
  | zero =>
    obtain ⟨f, rfl⟩ : ∃ f, fuel = f + 1 := ⟨fuel - 1, by omega⟩
    have h0 : busy (status u.reads % 2 ^ 32) = false := by
      rw [← Bool.not_eq_true, busy_status]
      simp at hready
      omega
    simp only [poll]
    rw [show busy (readStatus status u).1 = false from h0]
    simp [readStatus, statusLoads_cons, statusLoads_zero]
  | succ n ih =>
    obtain ⟨f, rfl⟩ : ∃ f, fuel = f + 1 := ⟨fuel - 1, by omega⟩
    have h0 : busy (status u.reads % 2 ^ 32) = true :=
      (busy_status status u.reads).2 (by simpa using hbusy 0 (Nat.succ_pos n))
    have hrest : ∀ i, i < n → status ((readStatus status u).2.reads + i) % 2 = 0 := by
      intro i hi
      have := hbusy (i + 1) (Nat.succ_lt_succ hi)
      simpa [readStatus, Nat.add_assoc, Nat.add_comm 1 i] using this
    have hr : status ((readStatus status u).2.reads + n) % 2 = 1 := by
      simpa [readStatus, Nat.add_assoc, Nat.add_comm 1 n] using hready
    have hstep := ih f (readStatus status u).2 hrest hr (by omega)
    simp only [poll]
    rw [show busy (readStatus status u).1 = true from h0, if_pos rfl, hstep]
    simp [readStatus, statusLoads_cons (n := n + 1), Nat.add_assoc, Nat.add_comm 1 (n + 1)]

/-- Every run of the loop is one of the two runs above. -/
theorem poll_cases (status : Nat → Nat) (fuel : Nat) (u : Uart) :
    (∃ n, n < fuel ∧ (∀ i, i < n → status (u.reads + i) % 2 = 0) ∧
        status (u.reads + n) % 2 = 1 ∧
        poll status fuel u =
          .returned ⟨u.reads + (n + 1), u.trace ++ statusLoads status u.reads (n + 1)⟩) ∨
    ((∀ i, i < fuel → status (u.reads + i) % 2 = 0) ∧
        poll status fuel u =
          .spinning ⟨u.reads + fuel, u.trace ++ statusLoads status u.reads fuel⟩) := by
  by_cases h : ∃ n, n < fuel ∧ status (u.reads + n) % 2 = 1
  · left
    classical
    have hmin : ∀ i, i < Nat.find h → status (u.reads + i) % 2 = 0 := by
      intro i hi
      have hnot := Nat.find_min h hi
      have hlt : i < fuel := Nat.lt_trans hi (Nat.find_spec h).1
      have : ¬ status (u.reads + i) % 2 = 1 := fun hc => hnot ⟨hlt, hc⟩
      omega
    exact ⟨Nat.find h, (Nat.find_spec h).1, hmin, (Nat.find_spec h).2,
      poll_exit status _ fuel u hmin (Nat.find_spec h).2 (Nat.find_spec h).1⟩
  · right
    have hall : ∀ i, i < fuel → status (u.reads + i) % 2 = 0 := by
      intro i hi
      have : ¬ status (u.reads + i) % 2 = 1 := fun hc => h ⟨i, hi, hc⟩
      omega
    exact ⟨hall, poll_spin status fuel u hall⟩

/-! ## `uart_putc` -/

theorem uart_putc_exit (cs : Bool) (status : Nat → Nat) (n fuel : Nat) (c : Byte) (u : Uart)
    (hbusy : ∀ i, i < n → status (u.reads + i) % 2 = 0)
    (hready : status (u.reads + n) % 2 = 1) (hfuel : n < fuel) :
    uart_putc cs status fuel c u =
      .returned ⟨u.reads + (n + 1),
        u.trace ++ statusLoads status u.reads (n + 1) ++
          [Access.store Reg.UART_TX (txWord cs c)]⟩ := by
  simp [uart_putc, poll_exit status n fuel u hbusy hready hfuel, Outcome.andThen, writeTx]

theorem uart_putc_spin (cs : Bool) (status : Nat → Nat) (n : Nat) (c : Byte) (u : Uart)
    (hbusy : ∀ i, i < n → status (u.reads + i) % 2 = 0) :
    uart_putc cs status n c u =
      .spinning ⟨u.reads + n, u.trace ++ statusLoads status u.reads n⟩ := by
  simp [uart_putc, poll_spin status n u hbusy, Outcome.andThen]

theorem uart_putc_cases (cs : Bool) (status : Nat → Nat) (fuel : Nat) (c : Byte) (u : Uart) :
    (∃ n, n < fuel ∧ (∀ i, i < n → status (u.reads + i) % 2 = 0) ∧
        status (u.reads + n) % 2 = 1 ∧
        uart_putc cs status fuel c u =
          .returned ⟨u.reads + (n + 1),
            u.trace ++ statusLoads status u.reads (n + 1) ++
              [Access.store Reg.UART_TX (txWord cs c)]⟩) ∨
    ((∀ i, i < fuel → status (u.reads + i) % 2 = 0) ∧
        uart_putc cs status fuel c u =
          .spinning ⟨u.reads + fuel, u.trace ++ statusLoads status u.reads fuel⟩) := by
  rcases poll_cases status fuel u with ⟨n, hn, hb, hr, _⟩ | ⟨hb, _⟩
  · exact Or.inl ⟨n, hn, hb, hr, uart_putc_exit cs status n fuel c u hb hr hn⟩
  · exact Or.inr ⟨hb, uart_putc_spin cs status fuel c u hb⟩

/-- The first read number, from `k` on, at which the ready bit shows. -/
theorem first_ready (status : Nat → Nat) (k : Nat) (h : ∃ j, status (k + j) % 2 = 1) :
    ∃ n, (∀ i, i < n → status (k + i) % 2 = 0) ∧ status (k + n) % 2 = 1 := by
  classical
  refine ⟨Nat.find h, ?_, Nat.find_spec h⟩
  intro i hi
  have := Nat.find_min h hi
  omega

/-- C1: when the ready bit shows at some later read of the status register,
`uart_putc(c)` returns (with any large enough budget of poll iterations), and
the accesses it makes are `n` status reads, one more status read whose bit 0
is set, and then, as last access, the single store to the transmit register.
The stored word is `c` converted to the register type: its low byte is `c`,
and it is `c` itself when `char` is unsigned or `c < 128`. -/
theorem uart_putc_writes_once (cs : Bool) (status : Nat → Nat) (c : Byte) (u : Uart)
    (h : ∃ j, status (u.reads + j) % 2 = 1) :
    ∃ n v u',
      (∀ fuel, n < fuel → uart_putc cs status fuel c u = .returned u') ∧
      u'.trace = u.trace ++ (statusLoads status u.reads n ++
        [Access.load Reg.UART_STATUS v, Access.store Reg.UART_TX (txWord cs c)]) ∧
      v % 2 = 1 ∧
      txWords (statusLoads status u.reads n ++
        [Access.load Reg.UART_STATUS v, Access.store Reg.UART_TX (txWord cs c)]) =
          [txWord cs c] ∧
      lowByte (txWord cs c) = c ∧
      (cs = false ∨ c.val < 128 → txWord cs c = c.val) := by
  obtain ⟨n, hbusy, hready⟩ := first_ready status u.reads h
  refine ⟨n, status (u.reads + n) % 2 ^ 32, _,
    fun fuel hf => uart_putc_exit cs status n fuel c u hbusy hready hf, ?_, ?_, ?_,
    lowByte_txWord cs c, ?_⟩
  · simp [statusLoads_snoc]
  · omega
  · rw [txWords_append, txWords_statusLoads]
    rfl
  · intro hc
    rw [txWord_eq]
    rcases hc with hc | hc
    · simp [hc]
    · rw [if_neg (by omega)]

theorem uart_putc_writes_once_witness :
    (∃ j, (fun k => if k < 2 then 0xFFFFFFFE else 1) (Uart.init.reads + j) % 2 = 1) ∧
    ∃ n v u',
      (∀ fuel, n < fuel →
        uart_putc true (fun k => if k < 2 then 0xFFFFFFFE else 1) fuel 200 Uart.init =
          .returned u') ∧
      u'.trace = Uart.init.trace ++
        (statusLoads (fun k => if k < 2 then 0xFFFFFFFE else 1) Uart.init.reads n ++
        [Access.load Reg.UART_STATUS v, Access.store Reg.UART_TX (txWord true 200)]) ∧
      v % 2 = 1 ∧
      txWords (statusLoads (fun k => if k < 2 then 0xFFFFFFFE else 1) Uart.init.reads n ++
        [Access.load Reg.UART_STATUS v, Access.store Reg.UART_TX (txWord true 200)]) =
          [txWord true 200] ∧
      lowByte (txWord true 200) = 200 ∧
      (true = false ∨ (200 : Byte).val < 128 → txWord true 200 = (200 : Byte).val) :=
  ⟨⟨2, by decide⟩, uart_putc_writes_once true _ 200 Uart.init ⟨2, by decide⟩⟩

/-- C8: if the next `N` status reads show bit 0 clear and the one after them
shows it set, `uart_putc(c)` returns after exactly `N + 1` status reads: with a
budget of at most `N` poll iterations it is still in the loop and has made
only status reads, and with any larger budget it returns having made the
`N + 1` status reads followed by the one store of `c` to the transmit register. -/
theorem uart_putc_after_busy_reads (cs : Bool) (status : Nat → Nat) (N : Nat) (c : Byte)
    (u : Uart) (hbusy : ∀ i, i < N → status (u.reads + i) % 2 = 0)
    (hready : status (u.reads + N) % 2 = 1) :
    (∀ fuel, N < fuel →
      uart_putc cs status fuel c u =
        .returned ⟨u.reads + (N + 1),
          u.trace ++ statusLoads status u.reads (N + 1) ++
            [Access.store Reg.UART_TX (txWord cs c)]⟩) ∧
    (∀ fuel, fuel ≤ N →
      uart_putc cs status fuel c u =
        .spinning ⟨u.reads + fuel, u.trace ++ statusLoads status u.reads fuel⟩) ∧
    (∀ k, txWords (statusLoads status u.reads k) = []) ∧
    (statusLoads status u.reads (N + 1)).length = N + 1 ∧
    lowByte (txWord cs c) = c := by
  refine ⟨fun fuel hf => uart_putc_exit cs status N fuel c u hbusy hready hf, ?_,
    fun k => txWords_statusLoads status u.reads k, statusLoads_length _ _ _,
    lowByte_txWord cs c⟩
  intro fuel hf
  exact uart_putc_spin cs status fuel c u (fun i hi => hbusy i (Nat.lt_of_lt_of_le hi hf))

theorem uart_putc_after_busy_reads_witness :
    (∀ fuel, 3 < fuel →
      uart_putc false (fun k => if k < 3 then 6 else 7) fuel 65 Uart.init =
        .returned ⟨Uart.init.reads + (3 + 1),
          Uart.init.trace ++ statusLoads (fun k => if k < 3 then 6 else 7) Uart.init.reads (3 + 1) ++
            [Access.store Reg.UART_TX (txWord false 65)]⟩) ∧
    (∀ fuel, fuel ≤ 3 →
      uart_putc false (fun k => if k < 3 then 6 else 7) fuel 65 Uart.init =
        .spinning ⟨Uart.init.reads + fuel,
          Uart.init.trace ++ statusLoads (fun k => if k < 3 then 6 else 7) Uart.init.reads fuel⟩) ∧
    (∀ k, txWords (statusLoads (fun k => if k < 3 then 6 else 7) Uart.init.reads k) = []) ∧
    (statusLoads (fun k => if k < 3 then 6 else 7) Uart.init.reads (3 + 1)).length = 3 + 1 ∧
    lowByte (txWord false 65) = 65 :=
  uart_putc_after_busy_reads false (fun k => if k < 3 then 6 else 7) 3 65 Uart.init
    (by decide) (by decide)

/-- C9: if every read of the status register shows bit 0 clear, `uart_putc`
does not return: whatever the budget `n` of poll iterations, after `n`
iterations the call is still in the poll loop, it has made `n` status reads
and no store to the transmit register, and no budget makes it return. -/
theorem uart_putc_never_returns (cs : Bool) (status : Nat → Nat) (c : Byte) (u : Uart)
    (hnever : ∀ k, status k % 2 = 0) :
    (∀ n, uart_putc cs status n c u =
        .spinning ⟨u.reads + n, u.trace ++ statusLoads status u.reads n⟩) ∧
    (∀ n, txWords (statusLoads status u.reads n) = []) ∧
    (∀ n u', uart_putc cs status n c u ≠ .returned u') := by
  have hspin : ∀ n, uart_putc cs status n c u =
      .spinning ⟨u.reads + n, u.trace ++ statusLoads status u.reads n⟩ :=
    fun n => uart_putc_spin cs status n c u (fun i _ => hnever _)
  refine ⟨hspin, fun n => txWords_statusLoads status u.reads n, ?_⟩
  intro n u' hret
  rw [hspin n] at hret
  cases hret

theorem uart_putc_never_returns_witness :
    (∀ k, (fun _ : Nat => 0xFFFFFFFE) k % 2 = 0) ∧
    (∀ n, uart_putc false (fun _ : Nat => 0xFFFFFFFE) n 65 Uart.init =
        .spinning ⟨Uart.init.reads + n,
          Uart.init.trace ++ statusLoads (fun _ : Nat => 0xFFFFFFFE) Uart.init.reads n⟩) ∧
    (∀ n, txWords (statusLoads (fun _ : Nat => 0xFFFFFFFE) Uart.init.reads n) = []) ∧
    (∀ n u', uart_putc false (fun _ : Nat => 0xFFFFFFFE) n 65 Uart.init ≠ .returned u') :=
  ⟨fun _ => (by decide : 0xFFFFFFFE % 2 = 0),
    uart_putc_never_returns false (fun _ : Nat => 0xFFFFFFFE) 65 Uart.init
      (fun _ => (by decide : 0xFFFFFFFE % 2 = 0))⟩

/-- C10: the poll loop looks at bit 0 of the status value and at nothing else.
One evaluation of the loop condition leaves the loop exactly when the
(32-bit) value read is odd, which is when `v & 0x01` is 1; every even value,
`0xFFFFFFFE` with all of bits 1..31 set among them, keeps the loop going, and
every odd value ends it. -/
theorem poll_exits_iff_bit0 (status : Nat → Nat) (u : Uart) (hi : Nat) :
    poll status 1 u =
      (if (status u.reads % 2 ^ 32) % 2 = 1 then .returned (readStatus status u).2
        else .spinning (readStatus status u).2) ∧
    (readStatus status u).1 = status u.reads % 2 ^ 32 ∧
    (((status u.reads % 2 ^ 32) &&& 0x01 = 1) ↔ (status u.reads % 2 ^ 32) % 2 = 1) ∧
    (busy (status u.reads % 2 ^ 32) = false ↔ (status u.reads % 2 ^ 32) % 2 = 1) ∧
    busy (2 * hi) = true ∧ busy (2 * hi + 1) = false ∧
    busy 0xFFFFFFFE = true ∧ busy 0x00000001 = false := by
  have hb : ∀ v, busy v = false ↔ v % 2 = 1 := by
    intro v
    rw [← Bool.not_eq_true, busy_iff]
    omega
  refine ⟨?_, rfl, ?_, hb _, (busy_iff _).2 (by omega), (hb _).2 (by omega),
    by decide, by decide⟩
  · simp only [poll]
    by_cases hv : (status u.reads % 2 ^ 32) % 2 = 1
    · rw [if_pos hv, show busy (readStatus status u).1 = false from (hb _).2 hv]
      simp
    · rw [if_neg hv,
        show busy (readStatus status u).1 = true from
          (busy_iff _).2 (by simp only [readStatus]; omega)]
      simp [poll]
  · rw [Nat.and_one_is_mod]

/-! ## Sequencing -/

theorem andThen_returned (o : Outcome) : o.andThen Outcome.returned = o := by
  cases o <;> rfl

theorem andThen_assoc (o : Outcome) (f g : Uart → Outcome) :
    (o.andThen f).andThen g = o.andThen fun u => (f u).andThen g := by
  cases o <;> rfl

theorem putcAll_append (cs : Bool) (status : Nat → Nat) (fuel : Nat) (a b : List Byte)
    (u : Uart) :
    putcAll cs status fuel (a ++ b) u =
      (putcAll cs status fuel a u).andThen (putcAll cs status fuel b) := by
  induction a generalizing u with
  | nil => rfl
  | cons c a ih =>
    simp only [List.cons_append, putcAll, andThen_assoc]
    congr 1
    funext u1
    exact ih u1

/-! ## The newline rule -/

theorem crlfSpec_nil : crlfSpec [] = [] := rfl

theorem crlfSpec_cons (b : Byte) (s : List Byte) :
    crlfSpec (b :: s) = (if b = LF then [CR, LF] else [b]) ++ crlfSpec s := by
  simp [crlfSpec]

theorem crlfSpec_append (a b : List Byte) : crlfSpec (a ++ b) = crlfSpec a ++ crlfSpec b := by
  simp [crlfSpec]

theorem crlfSpec_length (s : List Byte) : (crlfSpec s).length = s.length + s.count LF := by
  induction s with
  | nil => rfl
  | cons b s ih =>
    rw [crlfSpec_cons, List.length_append, ih, List.count_cons]
    by_cases hb : b = LF
    · simp [hb]; omega
    · have : ¬ (b == LF) = true := by simpa using hb
      simp [hb]; omega

theorem crlfSpec_of_no_LF (s : List Byte) (h : LF ∉ s) : crlfSpec s = s := by
  induction s with
  | nil => rfl
  | cons b s ih =>
    have hb : b ≠ LF := fun e => h (by simp [e])
    have hs : LF ∉ s := fun e => h (by simp [e])
    rw [crlfSpec_cons, if_neg hb, ih hs]
    rfl

/-! ## `uart_puts` as a sequence of `uart_putc` calls -/

theorem uart_puts_zero (cs : Bool) (status : Nat → Nat) (fuel : Nat) (rest : List Byte)
    (u : Uart) : uart_puts cs status fuel (0 :: rest) u = .returned u := by
  simp [uart_puts, charVal_eq_zero]

theorem putcAll_singleton (cs : Bool) (status : Nat → Nat) (fuel : Nat) (c : Byte) :
    putcAll cs status fuel [c] = uart_putc cs status fuel c := by
  funext u
  have hnil : putcAll cs status fuel [] = Outcome.returned := funext fun _ => rfl
  rw [putcAll, hnil, andThen_returned]

theorem uart_puts_cons (cs : Bool) (status : Nat → Nat) (fuel : Nat) (b : Byte)
    (rest : List Byte) (u : Uart) (hb : b ≠ 0) :
    uart_puts cs status fuel (b :: rest) u =
      (putcAll cs status fuel (crlfSpec [b]) u).andThen (uart_puts cs status fuel rest) := by
  rw [uart_puts, if_neg (by rw [charVal_eq_zero]; exact hb), toChar_thirteen]
  by_cases hlf : b = LF
  · rw [if_pos ((charVal_eq_ten cs b).2 hlf), crlfSpec_cons, if_pos hlf, crlfSpec_nil,
      List.append_nil, putcAll, putcAll_singleton, hlf]
  · rw [if_neg (by rw [charVal_eq_ten]; exact hlf), crlfSpec_cons, if_neg hlf, crlfSpec_nil,
      List.append_nil, putcAll_singleton]
    rfl

theorem uart_puts_append (cs : Bool) (status : Nat → Nat) (fuel : Nat) (s m : List Byte)
    (u : Uart) (hz : (0 : Byte) ∉ s) :
    uart_puts cs status fuel (s ++ m) u =
      (putcAll cs status fuel (crlfSpec s) u).andThen (uart_puts cs status fuel m) := by
  induction s generalizing u with
  | nil => rfl
  | cons b s ih =>
    have hb : b ≠ 0 := fun e => hz (by simp [e])
    have hs : (0 : Byte) ∉ s := fun e => hz (by simp [e])
    rw [List.cons_append, uart_puts_cons cs status fuel b (s ++ m) u hb,
      show b :: s = [b] ++ s from rfl, crlfSpec_append, putcAll_append, andThen_assoc]
    congr 1
    funext u1
    exact ih u1 hs

theorem uart_puts_eq_putcAll (cs : Bool) (status : Nat → Nat) (fuel : Nat) (s : List Byte)
    (u : Uart) (hz : (0 : Byte) ∉ s) :
    uart_puts cs status fuel (s ++ [0]) u = putcAll cs status fuel (crlfSpec s) u := by
  rw [uart_puts_append cs status fuel s [0] u hz]
  have : uart_puts cs status fuel [0] = Outcome.returned := by
    funext u1
    exact uart_puts_zero cs status fuel [] u1
  rw [this, andThen_returned]

/-! ## What a sequence of `uart_putc` calls transmits -/

theorem uart_putc_returned_words (cs : Bool) (status : Nat → Nat) (fuel : Nat) (c : Byte)
    (u u' : Uart) (h : uart_putc cs status fuel c u = .returned u') :
    txWords u'.trace = txWords u.trace ++ [txWord cs c] := by
  rcases uart_putc_cases cs status fuel c u with ⟨n, _, _, _, he⟩ | ⟨_, he⟩
  · rw [he] at h
    cases h
    simp only [txWords_append, txWords_statusLoads, List.append_nil]
    rfl
  · rw [he] at h
    cases h

theorem putcAll_returned_words (cs : Bool) (status : Nat → Nat) (fuel : Nat) (l : List Byte)
    (u u' : Uart) (h : putcAll cs status fuel l u = .returned u') :
    txWords u'.trace = txWords u.trace ++ l.map (txWord cs) := by
  induction l generalizing u with
  | nil =>
    cases h
    simp
  | cons c l ih =>
    rw [putcAll] at h
    cases h1 : uart_putc cs status fuel c u with
    | returned u1 =>
      rw [h1] at h
      rw [ih u1 h, uart_putc_returned_words cs status fuel c u u1 h1]
      simp
    | spinning u1 => rw [h1] at h; cases h
    | fault => rw [h1] at h; cases h

theorem lowByte_map_txWord (cs : Bool) (l : List Byte) :
    (l.map (txWord cs)).map lowByte = l := by
  induction l with
  | nil => rfl
  | cons c l ih => simp [lowByte_txWord, ih]

theorem putcAll_returned_bytes (cs : Bool) (status : Nat → Nat) (fuel : Nat) (l : List Byte)
    (u u' : Uart) (h : putcAll cs status fuel l u = .returned u') :
    txBytes u'.trace = txBytes u.trace ++ l := by
  simp only [txBytes, putcAll_returned_words cs status fuel l u u' h, List.map_append,
    lowByte_map_txWord]

/-- With a status register that always comes ready again, a sequence of
`uart_putc` calls returns, for every large enough budget with the same state. -/
theorem putcAll_returns (cs : Bool) (status : Nat → Nat) (hev : EventuallyReady status)
    (l : List Byte) (u : Uart) :
    ∃ fuel0 u', ∀ fuel, fuel0 ≤ fuel → putcAll cs status fuel l u = .returned u' := by
  induction l generalizing u with
  | nil => exact ⟨0, u, fun _ _ => rfl⟩
  | cons c l ih =>
    obtain ⟨n, hbusy, hready⟩ := first_ready status u.reads (hev u.reads)
    obtain ⟨f1, u', h1⟩ := ih ⟨u.reads + (n + 1),
      u.trace ++ statusLoads status u.reads (n + 1) ++ [Access.store Reg.UART_TX (txWord cs c)]⟩
    refine ⟨max (n + 1) f1, u', fun fuel hf => ?_⟩
    rw [putcAll, uart_putc_exit cs status n fuel c u hbusy hready (by omega)]
    exact h1 fuel (by omega)

theorem uart_puts_returns (cs : Bool) (status : Nat → Nat) (hev : EventuallyReady status)
    (s : List Byte) (hz : (0 : Byte) ∉ s) (u : Uart) :
    ∃ fuel0 u', (∀ fuel, fuel0 ≤ fuel →
        uart_puts cs status fuel (s ++ [0]) u = .returned u') ∧
      txWords u'.trace = txWords u.trace ++ (crlfSpec s).map (txWord cs) ∧
      txBytes u'.trace = txBytes u.trace ++ crlfSpec s := by
  obtain ⟨fuel0, u', h⟩ := putcAll_returns cs status hev (crlfSpec s) u
  refine ⟨fuel0, u', fun fuel hf => ?_, ?_, ?_⟩
  · rw [uart_puts_eq_putcAll cs status fuel s u hz]
    exact h fuel hf
  · exact putcAll_returned_words cs status fuel0 _ u u' (h fuel0 (Nat.le_refl _))
  · exact putcAll_returned_bytes cs status fuel0 _ u u' (h fuel0 (Nat.le_refl _))

theorem uart_puts_returned_bytes (cs : Bool) (status : Nat → Nat) (fuel : Nat)
    (s : List Byte) (hz : (0 : Byte) ∉ s) (u u' : Uart)
    (h : uart_puts cs status fuel (s ++ [0]) u = .returned u') :
    txBytes u'.trace = txBytes u.trace ++ crlfSpec s := by
  rw [uart_puts_eq_putcAll cs status fuel s u hz] at h
  exact putcAll_returned_bytes cs status fuel _ u u' h

/-- C2: for a string `s` without zero byte, stored with its terminator, and a
status register that always comes ready again, `uart_puts(s)` returns (with
any large enough budget of poll iterations) and the bytes it hands to the
transmit register are, in order, the spec's translation of `s`: carriage
return and line feed for each line feed, every other byte as it is. The words
stored are these bytes converted to the register type, and every run that
returns has transmitted exactly these bytes. -/
theorem uart_puts_transmits_crlf (cs : Bool) (status : Nat → Nat) (s : List Byte) (u : Uart)
    (hz : (0 : Byte) ∉ s) (hev : EventuallyReady status) :
    (∃ fuel0 u', (∀ fuel, fuel0 ≤ fuel →
        uart_puts cs status fuel (s ++ [0]) u = .returned u') ∧
      txBytes u'.trace = txBytes u.trace ++ crlfSpec s ∧
      txWords u'.trace = txWords u.trace ++ (crlfSpec s).map (txWord cs)) ∧
    (∀ fuel u', uart_puts cs status fuel (s ++ [0]) u = .returned u' →
      txBytes u'.trace = txBytes u.trace ++ crlfSpec s) := by
  obtain ⟨fuel0, u', h, hw, hb⟩ := uart_puts_returns cs status hev s hz u
  exact ⟨⟨fuel0, u', h, hb, hw⟩,
    fun fuel u'' hr => uart_puts_returned_bytes cs status fuel s hz u u'' hr⟩

theorem uart_puts_transmits_crlf_witness :
    ((0 : Byte) ∉ [72, 105, 10]) ∧ EventuallyReady (fun k => (k + 1) % 2) ∧
    ((∃ fuel0 u', (∀ fuel, fuel0 ≤ fuel →
        uart_puts true (fun k => (k + 1) % 2) fuel ([72, 105, 10] ++ [0]) Uart.init =
          .returned u') ∧
      txBytes u'.trace = txBytes Uart.init.trace ++ crlfSpec [72, 105, 10] ∧
      txWords u'.trace =
        txWords Uart.init.trace ++ (crlfSpec [72, 105, 10]).map (txWord true)) ∧
    (∀ fuel u',
      uart_puts true (fun k => (k + 1) % 2) fuel ([72, 105, 10] ++ [0]) Uart.init =
        .returned u' →
      txBytes u'.trace = txBytes Uart.init.trace ++ crlfSpec [72, 105, 10])) :=
  ⟨by decide, fun k => ⟨k % 2, by simp only []; omega⟩,
    uart_puts_transmits_crlf true (fun k => (k + 1) % 2) [72, 105, 10] Uart.init
      (by decide) (fun k => ⟨k % 2, by simp only []; omega⟩)⟩

/-- C6: on the empty string, whose first byte is the terminator, `uart_puts`
returns at once with the hardware state unchanged: no register is read and
none is written, whatever the status register would show, whatever follows
the terminator in memory, and with any budget of poll iterations, zero too. -/
theorem uart_puts_empty (cs : Bool) (status : Nat → Nat) (fuel : Nat) (rest : List Byte)
    (u : Uart) :
    uart_puts cs status fuel (0 :: rest) u = .returned u ∧
    uart_puts cs status fuel [0] Uart.init = .returned ⟨0, []⟩ ∧
    uart_puts cs status 0 [0] u = .returned u :=
  ⟨uart_puts_zero cs status fuel rest u, uart_puts_zero cs status fuel [] Uart.init,
    uart_puts_zero cs status 0 [] u⟩

/-- C7: for strings `s1` and `s2` without zero byte, one call of `uart_puts` on
`s1 ++ s2` has the same outcome, so the same trace of status reads and
transmit stores, as `uart_puts(s1)` followed by `uart_puts(s2)`, with the
same status values and the same budget per poll loop; either way it is the
sequence of `uart_putc` calls for the translated bytes of `s1` and then of
`s2`, and a run that returns has transmitted exactly those bytes, in order. -/
theorem uart_puts_concat (cs : Bool) (status : Nat → Nat) (fuel : Nat) (s1 s2 : List Byte)
    (u : Uart) (h1 : (0 : Byte) ∉ s1) (h2 : (0 : Byte) ∉ s2) :
    (uart_puts cs status fuel (s1 ++ [0]) u).andThen (uart_puts cs status fuel (s2 ++ [0])) =
      uart_puts cs status fuel (s1 ++ s2 ++ [0]) u ∧
    uart_puts cs status fuel (s1 ++ s2 ++ [0]) u =
      (putcAll cs status fuel (crlfSpec s1) u).andThen (putcAll cs status fuel (crlfSpec s2)) ∧
    (∀ u', uart_puts cs status fuel (s1 ++ s2 ++ [0]) u = .returned u' →
      txBytes u'.trace = txBytes u.trace ++ (crlfSpec s1 ++ crlfSpec s2)) := by
  have h12 : (0 : Byte) ∉ s1 ++ s2 := by
    intro h
    rcases List.mem_append.1 h with h | h
    · exact h1 h
    · exact h2 h
  have hsplit : uart_puts cs status fuel (s1 ++ s2 ++ [0]) u =
      (putcAll cs status fuel (crlfSpec s1) u).andThen
        (putcAll cs status fuel (crlfSpec s2)) := by
    rw [uart_puts_eq_putcAll cs status fuel (s1 ++ s2) u h12, crlfSpec_append, putcAll_append]
  refine ⟨?_, hsplit, ?_⟩
  · rw [hsplit, uart_puts_eq_putcAll cs status fuel s1 u h1]
    congr 1
    funext u1
    exact uart_puts_eq_putcAll cs status fuel s2 u1 h2
  · intro u' hr
    rw [← crlfSpec_append]
    exact uart_puts_returned_bytes cs status fuel (s1 ++ s2) h12 u u' hr

theorem uart_puts_concat_witness :
    ((0 : Byte) ∉ [97, 10]) ∧ ((0 : Byte) ∉ [98]) ∧
    uart_puts false (fun k => k % 2) 2 ([97, 10] ++ [98] ++ [0]) Uart.init =
      .returned ⟨8, [.load .UART_STATUS 0, .load .UART_STATUS 1, .store .UART_TX 97,
        .load .UART_STATUS 0, .load .UART_STATUS 1, .store .UART_TX 13,
        .load .UART_STATUS 0, .load .UART_STATUS 1, .store .UART_TX 10,
        .load .UART_STATUS 0, .load .UART_STATUS 1, .store .UART_TX 98]⟩ ∧
    ((uart_puts false (fun k => k % 2) 2 ([97, 10] ++ [0]) Uart.init).andThen
        (uart_puts false (fun k => k % 2) 2 ([98] ++ [0])) =
      uart_puts false (fun k => k % 2) 2 ([97, 10] ++ [98] ++ [0]) Uart.init ∧
    uart_puts false (fun k => k % 2) 2 ([97, 10] ++ [98] ++ [0]) Uart.init =
      (putcAll false (fun k => k % 2) 2 (crlfSpec [97, 10]) Uart.init).andThen
        (putcAll false (fun k => k % 2) 2 (crlfSpec [98])) ∧
    (∀ u', uart_puts false (fun k => k % 2) 2 ([97, 10] ++ [98] ++ [0]) Uart.init =
        .returned u' →
      txBytes u'.trace = txBytes Uart.init.trace ++ (crlfSpec [97, 10] ++ crlfSpec [98]))) :=
  ⟨by decide, by decide, by decide,
    uart_puts_concat false (fun k => k % 2) 2 [97, 10] [98] Uart.init (by decide) (by decide)⟩

/-- Where the translation of the byte at position `i` starts in the output. -/
theorem crlfSpec_at (s : List Byte) (i : Nat) (h : s[i]? = some LF) :
    (crlfSpec s)[i + (s.take i).count LF]? = some CR ∧
    (crlfSpec s)[i + (s.take i).count LF + 1]? = some LF := by
  obtain ⟨hi, hget⟩ := List.getElem?_eq_some_iff.1 h
  have hdrop : s.drop i = LF :: s.drop (i + 1) := by
    rw [List.drop_eq_getElem_cons hi, hget]
  have hlen : (crlfSpec (s.take i)).length = i + (s.take i).count LF := by
    rw [crlfSpec_length, List.length_take, Nat.min_eq_left (Nat.le_of_lt hi)]
  have hc : crlfSpec s = crlfSpec (s.take i) ++ (CR :: LF :: crlfSpec (s.drop (i + 1))) := by
    conv_lhs => rw [← List.take_append_drop i s, hdrop]
    rw [crlfSpec_append, crlfSpec_cons, if_pos rfl]
    rfl
  rw [hc, ← hlen]
  constructor
  · rw [List.getElem?_append_right (Nat.le_refl _)]
    simp
  · rw [List.getElem?_append_right (by omega)]
    simp

/-- C3: for a string `s` without zero byte that has a line feed at position
`i`, the bytes `uart_puts(s)` transmits have, at index `i` plus the number of
line feeds of `s` before `i`, a carriage return, and right after it the line
feed. In particular `uart_puts("a\nb")` transmits exactly `a`, carriage
return, line feed, `b`. In both cases the call returns with any large enough
budget of poll iterations, the status register coming ready again always. -/
theorem uart_puts_cr_before_lf (cs : Bool) (status : Nat → Nat) (s : List Byte) (i : Nat)
    (u : Uart) (hz : (0 : Byte) ∉ s) (hev : EventuallyReady status)
    (hlf : s[i]? = some LF) :
    (∃ fuel0 u' out, (∀ fuel, fuel0 ≤ fuel →
        uart_puts cs status fuel (s ++ [0]) u = .returned u') ∧
      txBytes u'.trace = txBytes u.trace ++ out ∧
      out[i + (s.take i).count LF]? = some CR ∧
      out[i + (s.take i).count LF + 1]? = some LF) ∧
    (∃ fuel0 u', (∀ fuel, fuel0 ≤ fuel →
        uart_puts cs status fuel [97, 10, 98, 0] Uart.init = .returned u') ∧
      txBytes u'.trace = [97, 13, 10, 98]) := by
  constructor
  · obtain ⟨fuel0, u', h, _, hb⟩ := uart_puts_returns cs status hev s hz u
    exact ⟨fuel0, u', crlfSpec s, h, hb, crlfSpec_at s i hlf⟩
  · obtain ⟨fuel0, u', h, _, hb⟩ :=
      uart_puts_returns cs status hev [97, 10, 98] (by decide) Uart.init
    exact ⟨fuel0, u', h, hb⟩

theorem uart_puts_cr_before_lf_witness :
    ((0 : Byte) ∉ [10, 120, 10, 121]) ∧ EventuallyReady (fun k => (k + 1) % 2) ∧
    ([10, 120, 10, 121] : List Byte)[2]? = some LF ∧
    2 + (([10, 120, 10, 121] : List Byte).take 2).count LF = 3 ∧
    ((∃ fuel0 u' out, (∀ fuel, fuel0 ≤ fuel →
        uart_puts false (fun k => (k + 1) % 2) fuel ([10, 120, 10, 121] ++ [0]) Uart.init =
          .returned u') ∧
      txBytes u'.trace = txBytes Uart.init.trace ++ out ∧
      out[2 + (([10, 120, 10, 121] : List Byte).take 2).count LF]? = some CR ∧
      out[2 + (([10, 120, 10, 121] : List Byte).take 2).count LF + 1]? = some LF) ∧
    (∃ fuel0 u', (∀ fuel, fuel0 ≤ fuel →
        uart_puts false (fun k => (k + 1) % 2) fuel [97, 10, 98, 0] Uart.init =
          .returned u') ∧
      txBytes u'.trace = [97, 13, 10, 98])) :=
  ⟨by decide, fun k => ⟨k % 2, by simp only []; omega⟩, by decide, by decide,
    uart_puts_cr_before_lf false (fun k => (k + 1) % 2) [10, 120, 10, 121] 2 Uart.init
      (by decide) (fun k => ⟨k % 2, by simp only []; omega⟩) (by decide)⟩

/-- C4: for a string `s` with neither a zero byte nor a line feed, `uart_puts(s)`
is the sequence of `uart_putc` calls for the bytes of `s`, one call per byte
and in order, so `len(s)` calls; with a status register that always comes
ready again it returns, having made `len(s)` stores to the transmit register,
and the `k`-th byte transmitted is `s[k]`. -/
theorem uart_puts_plain (cs : Bool) (status : Nat → Nat) (s : List Byte) (u : Uart)
    (hz : (0 : Byte) ∉ s) (hlf : LF ∉ s) (hev : EventuallyReady status) :
    (∀ fuel, uart_puts cs status fuel (s ++ [0]) u = putcAll cs status fuel s u) ∧
    (∃ fuel0 u', (∀ fuel, fuel0 ≤ fuel →
        uart_puts cs status fuel (s ++ [0]) u = .returned u') ∧
      txBytes u'.trace = txBytes u.trace ++ s ∧
      (txWords u'.trace).length = (txWords u.trace).length + s.length ∧
      (∀ k, k < s.length → (txBytes u'.trace)[(txBytes u.trace).length + k]? = s[k]?)) := by
  have hs := crlfSpec_of_no_LF s hlf
  constructor
  · intro fuel
    rw [uart_puts_eq_putcAll cs status fuel s u hz, hs]
  · obtain ⟨fuel0, u', h, hw, hb⟩ := uart_puts_returns cs status hev s hz u
    rw [hs] at hw hb
    refine ⟨fuel0, u', h, hb, ?_, ?_⟩
    · rw [hw, List.length_append, List.length_map]
    · intro k _
      rw [hb, List.getElem?_append_right (Nat.le_add_right _ _), Nat.add_sub_cancel_left]

theorem uart_puts_plain_witness :
    ((0 : Byte) ∉ [104, 105, 33]) ∧ (LF ∉ ([104, 105, 33] : List Byte)) ∧
    EventuallyReady (fun k => (k + 1) % 2) ∧
    ((∀ fuel, uart_puts true (fun k => (k + 1) % 2) fuel ([104, 105, 33] ++ [0]) Uart.init =
        putcAll true (fun k => (k + 1) % 2) fuel [104, 105, 33] Uart.init) ∧
    (∃ fuel0 u', (∀ fuel, fuel0 ≤ fuel →
        uart_puts true (fun k => (k + 1) % 2) fuel ([104, 105, 33] ++ [0]) Uart.init =
          .returned u') ∧
      txBytes u'.trace = txBytes Uart.init.trace ++ [104, 105, 33] ∧
      (txWords u'.trace).length =
        (txWords Uart.init.trace).length + ([104, 105, 33] : List Byte).length ∧
      (∀ k, k < ([104, 105, 33] : List Byte).length →
        (txBytes u'.trace)[(txBytes Uart.init.trace).length + k]? =
          ([104, 105, 33] : List Byte)[k]?))) :=
  ⟨by decide, by decide, fun k => ⟨k % 2, by simp only []; omega⟩,
    uart_puts_plain true (fun k => (k + 1) % 2) [104, 105, 33] Uart.init
      (by decide) (by decide) (fun k => ⟨k % 2, by simp only []; omega⟩)⟩

/-! ## Stores to the transmit register are gated by the ready bit -/

theorem gated_nil : Gated [] := by
  intro i w h
  simp at h

theorem gated_snoc_load (t : List Access) (r : Reg) (v : Nat) (ht : Gated t) :
    Gated (t ++ [Access.load r v]) := by
  intro i w h
  by_cases hi : i < t.length
  · rw [List.getElem?_append_left hi] at h
    obtain ⟨hpos, v', hv', hodd⟩ := ht i w h
    refine ⟨hpos, v', ?_, hodd⟩
    rw [List.getElem?_append_left (by omega)]
    exact hv'
  · rw [List.getElem?_append_right (by omega)] at h
    by_cases h0 : i - t.length = 0
    · rw [h0] at h
      simp at h
    · rw [List.getElem?_eq_none (by simp; omega)] at h
      cases h

theorem gated_append_statusLoads (t : List Access) (status : Nat → Nat) (k n : Nat)
    (ht : Gated t) : Gated (t ++ statusLoads status k n) := by
  induction n with
  | zero => simpa [statusLoads_zero] using ht
  | succ n ih =>
    rw [statusLoads_snoc, ← List.append_assoc]
    exact gated_snoc_load _ _ _ ih

theorem gated_snoc_store (t : List Access) (v w : Nat) (ht : Gated t) (hv : v % 2 = 1) :
    Gated (t ++ [Access.load Reg.UART_STATUS v] ++ [Access.store Reg.UART_TX w]) := by
  have hl := gated_snoc_load t Reg.UART_STATUS v ht
  intro i w' h
  by_cases hi : i < (t ++ [Access.load Reg.UART_STATUS v]).length
  · rw [List.getElem?_append_left hi] at h
    obtain ⟨hpos, v', hv', hodd⟩ := hl i w' h
    refine ⟨hpos, v', ?_, hodd⟩
    rw [List.getElem?_append_left (by omega)]
    exact hv'
  · have hlen : (t ++ [Access.load Reg.UART_STATUS v]).length = t.length + 1 := by simp
    by_cases h0 : i = t.length + 1
    · subst h0
      refine ⟨Nat.succ_pos _, v, ?_, hv⟩
      rw [List.getElem?_append_left (by rw [hlen]; omega), Nat.add_sub_cancel,
        List.getElem?_append_right (Nat.le_refl _)]
      simp
    · rw [List.getElem?_eq_none (by simp; omega)] at h
      cases h

theorem uart_putc_gated (cs : Bool) (status : Nat → Nat) (fuel : Nat) (c : Byte) (u u' : Uart)
    (hu : Gated u.trace) (h : (uart_putc cs status fuel c u).state? = some u') :
    Gated u'.trace := by
  rcases uart_putc_cases cs status fuel c u with ⟨n, _, _, hr, he⟩ | ⟨_, he⟩
  · rw [he] at h
    cases h
    have hodd : (status (u.reads + n) % 2 ^ 32) % 2 = 1 := by omega
    have := gated_snoc_store _ _ (txWord cs c)
      (gated_append_statusLoads u.trace status u.reads n hu) hodd
    simpa [statusLoads_snoc] using this
  · rw [he] at h
    cases h
    exact gated_append_statusLoads u.trace status u.reads fuel hu

theorem andThen_gated (o : Outcome) (k : Uart → Outcome)
    (ho : ∀ u1, o.state? = some u1 → Gated u1.trace)
    (hk : ∀ u1 u2, Gated u1.trace → (k u1).state? = some u2 → Gated u2.trace)
    (u' : Uart) (h : (o.andThen k).state? = some u') : Gated u'.trace := by
  cases o with
  | returned u1 => exact hk u1 u' (ho u1 rfl) h
  | spinning u1 => exact ho u' h
  | fault => cases h

theorem uart_puts_gated (cs : Bool) (status : Nat → Nat) (fuel : Nat) (mem : List Byte)
    (u u' : Uart) (hu : Gated u.trace)
    (h : (uart_puts cs status fuel mem u).state? = some u') : Gated u'.trace := by
  induction mem generalizing u u' with
  | nil => cases h
  | cons b rest ih =>
    rw [uart_puts] at h
    split at h
    · cases h
      exact hu
    · refine andThen_gated _ _ ?_ (fun u1 u2 h1 h2 => ih u1 u2 h1 h2) u' h
      intro u2 h2
      refine andThen_gated _ _ ?_
        (fun u1 u3 h1 h3 => uart_putc_gated cs status fuel b u1 u3 h1 h3) u2 h2
      intro u1 h1
      split at h1
      · exact uart_putc_gated cs status fuel _ u u1 hu h1
      · cases h1
        exact hu

/-- C5: in every run of `uart_putc` and of `uart_puts`, on any memory contents
and any status values, whether the run returns or is still polling, every
store to the transmit register comes right after a read of the status
register that returned a value with bit 0 set, which is then the most recent
status read: no such store is the first access, none follows another store,
and none follows a status read with bit 0 clear. This holds from the
power-on state and from any state whose trace has the property. -/
theorem tx_store_gated (cs : Bool) (status : Nat → Nat) (fuel : Nat) (c : Byte)
    (mem : List Byte) (u u' : Uart) (hu : Gated u.trace)
    (hrun : (uart_putc cs status fuel c u).state? = some u' ∨
      (uart_puts cs status fuel mem u).state? = some u') :
    Gated u'.trace ∧
    ∀ i w, u'.trace[i]? = some (Access.store Reg.UART_TX w) →
      0 < i ∧ ∃ v, u'.trace[i - 1]? = some (Access.load Reg.UART_STATUS v) ∧ v % 2 = 1 := by
  have hg : Gated u'.trace := by
    rcases hrun with h | h
    · exact uart_putc_gated cs status fuel c u u' hu h
    · exact uart_puts_gated cs status fuel mem u u' hu h
  exact ⟨hg, hg⟩

theorem tx_store_gated_witness :
    Gated Uart.init.trace ∧
    (uart_puts false (fun k => k % 2) 2 [10, 98, 0] Uart.init).state? =
      some ⟨6, [.load .UART_STATUS 0, .load .UART_STATUS 1, .store .UART_TX 13,
        .load .UART_STATUS 0, .load .UART_STATUS 1, .store .UART_TX 10,
        .load .UART_STATUS 0, .load .UART_STATUS 1, .store .UART_TX 98]⟩ ∧
    Gated [.load .UART_STATUS 0, .load .UART_STATUS 1, .store .UART_TX 13,
        .load .UART_STATUS 0, .load .UART_STATUS 1, .store .UART_TX 10,
        .load .UART_STATUS 0, .load .UART_STATUS 1, .store .UART_TX 98] :=
  ⟨gated_nil, by decide,
    (tx_store_gated false (fun k => k % 2) 2 0 [10, 98, 0] Uart.init
      ⟨6, [.load .UART_STATUS 0, .load .UART_STATUS 1, .store .UART_TX 13,
        .load .UART_STATUS 0, .load .UART_STATUS 1, .store .UART_TX 10,
        .load .UART_STATUS 0, .load .UART_STATUS 1, .store .UART_TX 98]⟩ gated_nil
      (Or.inr (by decide))).1⟩

/-! ## The terminator -/

theorem putcAll_ne_fault (cs : Bool) (status : Nat → Nat) (fuel : Nat) (l : List Byte)
    (u : Uart) : putcAll cs status fuel l u ≠ .fault := by
  induction l generalizing u with
  | nil => intro h; cases h
  | cons c l ih =>
    rw [putcAll]
    rcases uart_putc_cases cs status fuel c u with ⟨n, _, _, _, he⟩ | ⟨_, he⟩
    · rw [he]
      exact ih _
    · rw [he]
      intro h
      cases h

theorem txWord_ne_zero (cs : Bool) (c : Byte) (hc : c ≠ 0) : txWord cs c ≠ 0 := by
  have hlt := c.isLt
  have hv : c.val ≠ 0 := fun e => hc (Fin.ext e)
  rw [txWord_eq]
  split <;> omega

theorem zero_not_mem_crlfSpec (s : List Byte) (hz : (0 : Byte) ∉ s) :
    (0 : Byte) ∉ crlfSpec s := by
  induction s with
  | nil => simp [crlfSpec_nil]
  | cons b s ih =>
    have hb : (0 : Byte) ≠ b := fun e => hz (by simp [e])
    have hs : (0 : Byte) ∉ s := fun e => hz (by simp [e])
    rw [crlfSpec_cons]
    intro hmem
    rcases List.mem_append.1 hmem with h | h
    · split at h
      · revert h
        decide
      · exact hb (by simpa using h)
    · exact ih hs h

theorem txWords_store (w : Nat) : txWords [Access.store Reg.UART_TX w] = [w] := rfl

/-- The words stored by a run of `putcAll`, returned or not, are those of
the first `k` listed bytes, for some `k`. -/
theorem putcAll_state_words (cs : Bool) (status : Nat → Nat) (fuel : Nat) (l : List Byte)
    (u u' : Uart) (h : (putcAll cs status fuel l u).state? = some u') :
    ∃ k, txWords u'.trace = txWords u.trace ++ (l.take k).map (txWord cs) := by
  induction l generalizing u with
  | nil =>
    cases h
    exact ⟨0, by simp⟩
  | cons c l ih =>
    rw [putcAll] at h
    rcases uart_putc_cases cs status fuel c u with ⟨n, _, _, _, he⟩ | ⟨_, he⟩
    · rw [he] at h
      obtain ⟨k, hk⟩ := ih _ h
      refine ⟨k + 1, ?_⟩
      rw [hk]
      simp only [txWords_append, txWords_statusLoads, txWords_store, List.append_nil,
        List.take_succ_cons, List.map_cons, List.append_assoc, List.singleton_append,
        List.nil_append]
    · rw [he] at h
      cases h
      exact ⟨0, by simp [txWords_append, txWords_statusLoads]⟩

/-- C11: `uart_puts` stops at the first zero byte. For a string `p` without
zero byte and any memory contents `t` after its terminator, the run on
`p ++ [0] ++ t` has exactly the outcome, so the same trace of register
accesses, as the run on `p ++ [0]`, namely the `uart_putc` calls for the
translated bytes of `p`. The run on `p ++ [0]` never leaves the modelled
memory, which ends with the terminator, so nothing after the terminator is
read; and in every run the words stored to the transmit register are those
of the first bytes of the translation of `p`, none of which is zero: the
terminator is not transmitted. -/
theorem uart_puts_stops_at_zero (cs : Bool) (status : Nat → Nat) (fuel : Nat)
    (p t : List Byte) (u : Uart) (hz : (0 : Byte) ∉ p) :
    uart_puts cs status fuel (p ++ [0] ++ t) u = uart_puts cs status fuel (p ++ [0]) u ∧
    uart_puts cs status fuel (p ++ [0]) u = putcAll cs status fuel (crlfSpec p) u ∧
    uart_puts cs status fuel (p ++ [0]) u ≠ .fault ∧
    (∀ u', (uart_puts cs status fuel (p ++ [0] ++ t) u).state? = some u' →
      ∃ k, txWords u'.trace = txWords u.trace ++ ((crlfSpec p).take k).map (txWord cs)) ∧
    (∀ u', uart_puts cs status fuel (p ++ [0] ++ t) u = .returned u' →
      txBytes u'.trace = txBytes u.trace ++ crlfSpec p) ∧
    (0 : Byte) ∉ crlfSpec p ∧ (0 : Nat) ∉ (crlfSpec p).map (txWord cs) := by
  have hstop : ∀ m, uart_puts cs status fuel (p ++ 0 :: m) u =
      putcAll cs status fuel (crlfSpec p) u := by
    intro m
    rw [uart_puts_append cs status fuel p (0 :: m) u hz]
    have : uart_puts cs status fuel (0 :: m) = Outcome.returned := by
      funext u1
      exact uart_puts_zero cs status fuel m u1
    rw [this, andThen_returned]
  have htail : uart_puts cs status fuel (p ++ [0] ++ t) u =
      putcAll cs status fuel (crlfSpec p) u := by
    rw [List.append_assoc]
    exact hstop t
  have hnot := zero_not_mem_crlfSpec p hz
  refine ⟨by rw [htail]; exact (hstop []).symm, hstop [], ?_, ?_, ?_, hnot, ?_⟩
  · rw [hstop []]
    exact putcAll_ne_fault cs status fuel _ u
  · intro u' h
    rw [htail] at h
    exact putcAll_state_words cs status fuel _ u u' h
  · intro u' h
    rw [htail] at h
    exact putcAll_returned_bytes cs status fuel _ u u' h
  · intro hmem
    obtain ⟨c, hc, hw⟩ := List.mem_map.1 hmem
    exact txWord_ne_zero cs c (fun e => hnot (e ▸ hc)) hw

theorem uart_puts_stops_at_zero_witness :
    ((0 : Byte) ∉ [104, 10]) ∧
    uart_puts false (fun k => k % 2) 2 ([104, 10] ++ [0] ++ [120, 0, 121]) Uart.init =
      .returned ⟨6, [.load .UART_STATUS 0, .load .UART_STATUS 1, .store .UART_TX 104,
        .load .UART_STATUS 0, .load .UART_STATUS 1, .store .UART_TX 13,
        .load .UART_STATUS 0, .load .UART_STATUS 1, .store .UART_TX 10]⟩ ∧
    (uart_puts false (fun k => k % 2) 2 ([104, 10] ++ [0] ++ [120, 0, 121]) Uart.init =
      uart_puts false (fun k => k % 2) 2 ([104, 10] ++ [0]) Uart.init ∧
    uart_puts false (fun k => k % 2) 2 ([104, 10] ++ [0]) Uart.init =
      putcAll false (fun k => k % 2) 2 (crlfSpec [104, 10]) Uart.init ∧
    uart_puts false (fun k => k % 2) 2 ([104, 10] ++ [0]) Uart.init ≠ .fault ∧
    (∀ u', (uart_puts false (fun k => k % 2) 2 ([104, 10] ++ [0] ++ [120, 0, 121])
        Uart.init).state? = some u' →
      ∃ k, txWords u'.trace =
        txWords Uart.init.trace ++ ((crlfSpec [104, 10]).take k).map (txWord false)) ∧
    (∀ u', uart_puts false (fun k => k % 2) 2 ([104, 10] ++ [0] ++ [120, 0, 121]) Uart.init =
        .returned u' →
      txBytes u'.trace = txBytes Uart.init.trace ++ crlfSpec [104, 10]) ∧
    (0 : Byte) ∉ crlfSpec [104, 10] ∧ (0 : Nat) ∉ (crlfSpec [104, 10]).map (txWord false)) :=
  ⟨by decide, by decide,
    uart_puts_stops_at_zero false (fun k => k % 2) 2 [104, 10] [120, 0, 121] Uart.init
      (by decide)⟩

/-! ## Which registers are touched -/

theorem extends_refl (t : List Access) : Extends t t :=
  ⟨[], by simp, fun a h => by cases h⟩

theorem extends_trans (t1 t2 t3 : List Access) (h12 : Extends t1 t2) (h23 : Extends t2 t3) :
    Extends t1 t3 := by
  obtain ⟨a1, e1, p1⟩ := h12
  obtain ⟨a2, e2, p2⟩ := h23
  refine ⟨a1 ++ a2, by rw [e2, e1, List.append_assoc], ?_⟩
  intro a ha
  rcases List.mem_append.1 ha with h | h
  · exact p1 a h
  · exact p2 a h

theorem extends_statusLoads (t : List Access) (status : Nat → Nat) (k n : Nat) :
    Extends t (t ++ statusLoads status k n) := by
  refine ⟨_, rfl, ?_⟩
  intro a ha
  obtain ⟨i, _, hi⟩ := List.mem_map.1 ha
  exact Or.inl ⟨_, hi.symm⟩

theorem uart_putc_extends (cs : Bool) (status : Nat → Nat) (fuel : Nat) (c : Byte)
    (u u' : Uart) (h : (uart_putc cs status fuel c u).state? = some u') :
    Extends u.trace u'.trace := by
  rcases uart_putc_cases cs status fuel c u with ⟨n, _, _, _, he⟩ | ⟨_, he⟩
  · rw [he] at h
    cases h
    refine extends_trans _ _ _ (extends_statusLoads u.trace status u.reads (n + 1)) ?_
    refine ⟨_, rfl, ?_⟩
    intro a ha
    rw [List.mem_singleton] at ha
    exact Or.inr ⟨_, ha⟩
  · rw [he] at h
    cases h
    exact extends_statusLoads u.trace status u.reads fuel

theorem andThen_extends (t : List Access) (o : Outcome) (k : Uart → Outcome)
    (ho : ∀ u1, o.state? = some u1 → Extends t u1.trace)
    (hk : ∀ u1 u2, (k u1).state? = some u2 → Extends u1.trace u2.trace)
    (u' : Uart) (h : (o.andThen k).state? = some u') : Extends t u'.trace := by
  cases o with
  | returned u1 => exact extends_trans _ _ _ (ho u1 rfl) (hk u1 u' h)
  | spinning u1 => exact ho u' h
  | fault => cases h

theorem uart_puts_extends (cs : Bool) (status : Nat → Nat) (fuel : Nat) (mem : List Byte)
    (u u' : Uart) (h : (uart_puts cs status fuel mem u).state? = some u') :
    Extends u.trace u'.trace := by
  induction mem generalizing u u' with
  | nil => cases h
  | cons b rest ih =>
    rw [uart_puts] at h
    split at h
    · cases h
      exact extends_refl _
    · refine andThen_extends _ _ _ ?_ (fun u1 u2 h2 => ih u1 u2 h2) u' h
      intro u2 h2
      refine andThen_extends _ _ _ ?_
        (fun u1 u3 h3 => uart_putc_extends cs status fuel b u1 u3 h3) u2 h2
      intro u1 h1
      split at h1
      · exact uart_putc_extends cs status fuel _ u u1 h1
      · cases h1
        exact extends_refl _

/-- C12: in every run of `uart_putc` and of `uart_puts`, returned or still
polling, on any memory contents and status values, the trace is the earlier
trace followed by the accesses of the run, and each of these is a load from
the status register at `UART_BASE + 0x08` or a store to the transmit register
at `UART_BASE + 0x00`. So none of them touches the receive register at
`UART_BASE + 0x04`, none stores to the status register, and none loads from
the transmit register. -/
theorem only_status_loads_and_tx_stores (cs : Bool) (status : Nat → Nat) (fuel : Nat)
    (c : Byte) (mem : List Byte) (u u' : Uart)
    (hrun : (uart_putc cs status fuel c u).state? = some u' ∨
      (uart_puts cs status fuel mem u).state? = some u') :
    ∃ acc, u'.trace = u.trace ++ acc ∧ ∀ a ∈ acc,
      ((a.isStore = false ∧ a.reg = Reg.UART_STATUS ∧ a.reg.addr = UART_BASE + 0x08) ∨
        (a.isStore = true ∧ a.reg = Reg.UART_TX ∧ a.reg.addr = UART_BASE + 0x00)) ∧
      a.reg ≠ Reg.UART_RX ∧ a.reg.addr ≠ UART_BASE + 0x04 ∧
      (∀ v, a ≠ Access.load Reg.UART_RX v) ∧ (∀ v, a ≠ Access.store Reg.UART_RX v) ∧
      (∀ v, a ≠ Access.store Reg.UART_STATUS v) ∧ (∀ v, a ≠ Access.load Reg.UART_TX v) := by
  have hext : Extends u.trace u'.trace := by
    rcases hrun with h | h
    · exact uart_putc_extends cs status fuel c u u' h
    · exact uart_puts_extends cs status fuel mem u u' h
  obtain ⟨acc, hacc, hall⟩ := hext
  refine ⟨acc, hacc, ?_⟩
  intro a ha
  rcases hall a ha with ⟨v, rfl⟩ | ⟨w, rfl⟩
  · refine ⟨Or.inl ⟨rfl, rfl, rfl⟩,
      (by decide : Reg.UART_STATUS ≠ Reg.UART_RX),
      (by decide : Reg.addr Reg.UART_STATUS ≠ UART_BASE + 0x04), ?_, ?_, ?_, ?_⟩ <;>
      intro x hx <;> cases hx
  · refine ⟨Or.inr ⟨rfl, rfl, rfl⟩,
      (by decide : Reg.UART_TX ≠ Reg.UART_RX),
      (by decide : Reg.addr Reg.UART_TX ≠ UART_BASE + 0x04), ?_, ?_, ?_, ?_⟩ <;>
      intro x hx <;> cases hx

theorem only_status_loads_and_tx_stores_witness :
    (uart_puts false (fun k => k % 2) 2 [10, 0] Uart.init).state? =
      some ⟨4, [.load .UART_STATUS 0, .load .UART_STATUS 1, .store .UART_TX 13,
        .load .UART_STATUS 0, .load .UART_STATUS 1, .store .UART_TX 10]⟩ ∧
    ∃ acc, (⟨4, [.load .UART_STATUS 0, .load .UART_STATUS 1, .store .UART_TX 13,
        .load .UART_STATUS 0, .load .UART_STATUS 1, .store .UART_TX 10]⟩ : Uart).trace =
        Uart.init.trace ++ acc ∧ ∀ a ∈ acc,
      ((a.isStore = false ∧ a.reg = Reg.UART_STATUS ∧ a.reg.addr = UART_BASE + 0x08) ∨
        (a.isStore = true ∧ a.reg = Reg.UART_TX ∧ a.reg.addr = UART_BASE + 0x00)) ∧
      a.reg ≠ Reg.UART_RX ∧ a.reg.addr ≠ UART_BASE + 0x04 ∧
      (∀ v, a ≠ Access.load Reg.UART_RX v) ∧ (∀ v, a ≠ Access.store Reg.UART_RX v) ∧
      (∀ v, a ≠ Access.store Reg.UART_STATUS v) ∧ (∀ v, a ≠ Access.load Reg.UART_TX v) :=
  ⟨by decide,
    only_status_loads_and_tx_stores false (fun k => k % 2) 2 0 [10, 0] Uart.init
      ⟨4, [.load .UART_STATUS 0, .load .UART_STATUS 1, .store .UART_TX 13,
        .load .UART_STATUS 0, .load .UART_STATUS 1, .store .UART_TX 10]⟩
      (Or.inr (by decide))⟩

/-! ## Carriage returns and line feeds in the output -/

theorem crlfSpec_count_CR (s : List Byte) :
    (crlfSpec s).count CR = s.count CR + s.count LF := by
  induction s with
  | nil => rfl
  | cons b s ih =>
    rw [crlfSpec_cons, List.count_append, ih, List.count_cons, List.count_cons]
    by_cases hlf : b = LF
    · subst hlf
      have h1 : List.count CR [CR, LF] = 1 := by decide
      have h2 : (LF == CR) = false := by decide
      have h3 : (LF == LF) = true := by decide
      rw [if_pos rfl, h1, h2, h3]
      simp only [if_true, Bool.false_eq_true, if_false]
      omega
    · have h3 : (b == LF) = false := by simpa using hlf
      rw [if_neg hlf, h3, List.count_cons, List.count_nil]
      simp only [Bool.false_eq_true, if_false]
      omega

theorem crlfSpec_lf_after_cr (s : List Byte) (i : Nat) (h : (crlfSpec s)[i]? = some LF) :
    0 < i ∧ (crlfSpec s)[i - 1]? = some CR := by
  induction s generalizing i with
  | nil => simp [crlfSpec_nil] at h
  | cons b s ih =>
    rw [crlfSpec_cons] at h ⊢
    by_cases hlf : b = LF
    · rw [if_pos hlf] at h ⊢
      match i, h with
      | 0, h =>
        have h0 : (CR : Byte) = LF := by simpa using h
        exact absurd h0 (by decide)
      | 1, _ => exact ⟨Nat.one_pos, rfl⟩
      | j + 2, h =>
        have hj : (crlfSpec s)[j]? = some LF := by simpa using h
        obtain ⟨hpos, hprev⟩ := ih j hj
        obtain ⟨k, rfl⟩ : ∃ k, j = k + 1 := ⟨j - 1, by omega⟩
        exact ⟨Nat.succ_pos _, by simpa using hprev⟩
    · rw [if_neg hlf] at h ⊢
      match i, h with
      | 0, h =>
        have h0 : b = LF := by simpa using h
        exact absurd h0 hlf
      | j + 1, h =>
        have hj : (crlfSpec s)[j]? = some LF := by simpa using h
        obtain ⟨hpos, hprev⟩ := ih j hj
        obtain ⟨k, rfl⟩ : ∃ k, j = k + 1 := ⟨j - 1, by omega⟩
        exact ⟨Nat.succ_pos _, by simpa using hprev⟩

theorem uart_puts_returned_words (cs : Bool) (status : Nat → Nat) (fuel : Nat)
    (s : List Byte) (hz : (0 : Byte) ∉ s) (u u' : Uart)
    (h : uart_puts cs status fuel (s ++ [0]) u = .returned u') :
    txWords u'.trace = txWords u.trace ++ (crlfSpec s).map (txWord cs) := by
  rw [uart_puts_eq_putcAll cs status fuel s u hz] at h
  exact putcAll_returned_words cs status fuel _ u u' h

/-- C13: a carriage return is put before every line feed of the input, whatever
the byte before it. For a string `s` without zero byte, the bytes `uart_puts`
transmits contain as many carriage returns as `s` has carriage returns and
line feeds together, and each line feed of `s` shows up as carriage return,
line feed. So `uart_puts("\r\n")` transmits carriage return, carriage return,
line feed, and the translation is not idempotent: applied again to that
output it transmits three carriage returns and the line feed. -/
theorem uart_puts_cr_count (cs : Bool) (status : Nat → Nat) (s : List Byte) (u : Uart)
    (hz : (0 : Byte) ∉ s) (hev : EventuallyReady status) :
    (∃ fuel0 u' out, (∀ fuel, fuel0 ≤ fuel →
        uart_puts cs status fuel (s ++ [0]) u = .returned u') ∧
      txBytes u'.trace = txBytes u.trace ++ out ∧
      out.count CR = s.count CR + s.count LF ∧
      (∀ i, s[i]? = some LF →
        out[i + (s.take i).count LF]? = some CR ∧
        out[i + (s.take i).count LF + 1]? = some LF)) ∧
    (∃ fuel0 u', (∀ fuel, fuel0 ≤ fuel →
        uart_puts cs status fuel [13, 10, 0] Uart.init = .returned u') ∧
      txBytes u'.trace = [13, 13, 10]) ∧
    (∃ fuel0 u', (∀ fuel, fuel0 ≤ fuel →
        uart_puts cs status fuel [13, 13, 10, 0] Uart.init = .returned u') ∧
      txBytes u'.trace = [13, 13, 13, 10]) ∧
    crlfSpec (crlfSpec [CR, LF]) ≠ crlfSpec [CR, LF] := by
  refine ⟨?_, ?_, ?_, by decide⟩
  · obtain ⟨fuel0, u', h, _, hb⟩ := uart_puts_returns cs status hev s hz u
    exact ⟨fuel0, u', crlfSpec s, h, hb, crlfSpec_count_CR s, fun i hi => crlfSpec_at s i hi⟩
  · obtain ⟨fuel0, u', h, _, hb⟩ :=
      uart_puts_returns cs status hev [13, 10] (by decide) Uart.init
    exact ⟨fuel0, u', h, hb⟩
  · obtain ⟨fuel0, u', h, _, hb⟩ :=
      uart_puts_returns cs status hev [13, 13, 10] (by decide) Uart.init
    exact ⟨fuel0, u', h, hb⟩

theorem uart_puts_cr_count_witness :
    ((0 : Byte) ∉ [13, 10, 65, 10]) ∧ EventuallyReady (fun k => (k + 1) % 2) ∧
    ([13, 10, 65, 10] : List Byte).count CR + ([13, 10, 65, 10] : List Byte).count LF = 3 ∧
    ((∃ fuel0 u' out, (∀ fuel, fuel0 ≤ fuel →
        uart_puts false (fun k => (k + 1) % 2) fuel ([13, 10, 65, 10] ++ [0]) Uart.init =
          .returned u') ∧
      txBytes u'.trace = txBytes Uart.init.trace ++ out ∧
      out.count CR =
        ([13, 10, 65, 10] : List Byte).count CR + ([13, 10, 65, 10] : List Byte).count LF ∧
      (∀ i, ([13, 10, 65, 10] : List Byte)[i]? = some LF →
        out[i + (([13, 10, 65, 10] : List Byte).take i).count LF]? = some CR ∧
        out[i + (([13, 10, 65, 10] : List Byte).take i).count LF + 1]? = some LF)) ∧
    (∃ fuel0 u', (∀ fuel, fuel0 ≤ fuel →
        uart_puts false (fun k => (k + 1) % 2) fuel [13, 10, 0] Uart.init = .returned u') ∧
      txBytes u'.trace = [13, 13, 10]) ∧
    (∃ fuel0 u', (∀ fuel, fuel0 ≤ fuel →
        uart_puts false (fun k => (k + 1) % 2) fuel [13, 13, 10, 0] Uart.init =
          .returned u') ∧
      txBytes u'.trace = [13, 13, 13, 10]) ∧
    crlfSpec (crlfSpec [CR, LF]) ≠ crlfSpec [CR, LF]) :=
  ⟨by decide, fun k => ⟨k % 2, by simp only []; omega⟩, by decide,
    uart_puts_cr_count false (fun k => (k + 1) % 2) [13, 10, 65, 10] Uart.init
      (by decide) (fun k => ⟨k % 2, by simp only []; omega⟩)⟩

/-- C14: for every byte `c`, signed `char` or not, a call `uart_putc(c)` that
returns has made one store to the transmit register, as its last access, and
the low eight bits of the 32-bit word stored are `c`. The word is `c` itself
when `char` is unsigned or `c < 128`, and `c + 0xFFFFFF00` (sign extension)
when `char` is signed and `c` is 128 or more. -/
theorem uart_putc_low_byte (cs : Bool) (status : Nat → Nat) (fuel : Nat) (c : Byte)
    (u u' : Uart) (h : uart_putc cs status fuel c u = .returned u') :
    (∃ pre, u'.trace = u.trace ++ pre ++ [Access.store Reg.UART_TX (txWord cs c)] ∧
      txWords pre = []) ∧
    txWords u'.trace = txWords u.trace ++ [txWord cs c] ∧
    txWord cs c % 256 = c.val ∧
    lowByte (txWord cs c) = c ∧
    txWord cs c < 2 ^ 32 ∧
    txWord cs c = (if cs = true ∧ 128 ≤ c.val then c.val + 0xFFFFFF00 else c.val) := by
  have hlow := lowByte_txWord cs c
  refine ⟨?_, uart_putc_returned_words cs status fuel c u u' h, ?_, hlow, txWord_lt cs c,
    txWord_eq cs c⟩
  · rcases uart_putc_cases cs status fuel c u with ⟨n, _, _, _, he⟩ | ⟨_, he⟩
    · rw [he] at h
      cases h
      exact ⟨statusLoads status u.reads (n + 1), rfl, txWords_statusLoads _ _ _⟩
    · rw [he] at h
      cases h
  · have := congrArg Fin.val hlow
    simpa [lowByte] using this

theorem uart_putc_low_byte_witness :
    uart_putc true (fun k => k % 2) 2 200 Uart.init =
      .returned ⟨2, [.load .UART_STATUS 0, .load .UART_STATUS 1,
        .store .UART_TX 0xFFFFFFC8]⟩ ∧
    txWord true 200 = 0xFFFFFFC8 ∧
    ((∃ pre, (⟨2, [.load .UART_STATUS 0, .load .UART_STATUS 1,
        .store .UART_TX 0xFFFFFFC8]⟩ : Uart).trace =
        Uart.init.trace ++ pre ++ [Access.store Reg.UART_TX (txWord true 200)] ∧
      txWords pre = []) ∧
    txWords (⟨2, [.load .UART_STATUS 0, .load .UART_STATUS 1,
        .store .UART_TX 0xFFFFFFC8]⟩ : Uart).trace =
      txWords Uart.init.trace ++ [txWord true 200] ∧
    txWord true 200 % 256 = (200 : Byte).val ∧
    lowByte (txWord true 200) = 200 ∧
    txWord true 200 < 2 ^ 32 ∧
    txWord true 200 =
      (if true = true ∧ 128 ≤ (200 : Byte).val then (200 : Byte).val + 0xFFFFFF00
        else (200 : Byte).val)) :=
  ⟨by decide, by decide,
    uart_putc_low_byte true (fun k => k % 2) 2 200 Uart.init
      ⟨2, [.load .UART_STATUS 0, .load .UART_STATUS 1, .store .UART_TX 0xFFFFFFC8]⟩
      (by decide)⟩

/-- C15: what `uart_puts(s)` transmits does not depend on the status register.
For a string `s` without zero byte, two runs from the same state, with any
two sequences of status values and any budgets, that both return have stored
the same words to the transmit register, in the same order, and so
transmitted the same bytes: the translation of `s`. -/
theorem uart_puts_output_independent_of_status (cs : Bool) (s : List Byte)
    (status1 status2 : Nat → Nat) (fuel1 fuel2 : Nat) (u u1 u2 : Uart)
    (hz : (0 : Byte) ∉ s)
    (h1 : uart_puts cs status1 fuel1 (s ++ [0]) u = .returned u1)
    (h2 : uart_puts cs status2 fuel2 (s ++ [0]) u = .returned u2) :
    txWords u1.trace = txWords u2.trace ∧
    txBytes u1.trace = txBytes u2.trace ∧
    txBytes u1.trace = txBytes u.trace ++ crlfSpec s := by
  have w1 := uart_puts_returned_words cs status1 fuel1 s hz u u1 h1
  have w2 := uart_puts_returned_words cs status2 fuel2 s hz u u2 h2
  have b1 := uart_puts_returned_bytes cs status1 fuel1 s hz u u1 h1
  have b2 := uart_puts_returned_bytes cs status2 fuel2 s hz u u2 h2
  exact ⟨by rw [w1, w2], by rw [b1, b2], b1⟩

theorem uart_puts_output_independent_of_status_witness :
    ((0 : Byte) ∉ [79, 10]) ∧
    uart_puts false (fun _ => 1) 1 ([79, 10] ++ [0]) Uart.init =
      .returned ⟨3, [.load .UART_STATUS 1, .store .UART_TX 79,
        .load .UART_STATUS 1, .store .UART_TX 13,
        .load .UART_STATUS 1, .store .UART_TX 10]⟩ ∧
    uart_puts false (fun k => k % 2) 2 ([79, 10] ++ [0]) Uart.init =
      .returned ⟨6, [.load .UART_STATUS 0, .load .UART_STATUS 1, .store .UART_TX 79,
        .load .UART_STATUS 0, .load .UART_STATUS 1, .store .UART_TX 13,
        .load .UART_STATUS 0, .load .UART_STATUS 1, .store .UART_TX 10]⟩ ∧
    (txWords (⟨3, [.load .UART_STATUS 1, .store .UART_TX 79,
        .load .UART_STATUS 1, .store .UART_TX 13,
        .load .UART_STATUS 1, .store .UART_TX 10]⟩ : Uart).trace =
      txWords (⟨6, [.load .UART_STATUS 0, .load .UART_STATUS 1, .store .UART_TX 79,
        .load .UART_STATUS 0, .load .UART_STATUS 1, .store .UART_TX 13,
        .load .UART_STATUS 0, .load .UART_STATUS 1, .store .UART_TX 10]⟩ : Uart).trace ∧
    txBytes (⟨3, [.load .UART_STATUS 1, .store .UART_TX 79,
        .load .UART_STATUS 1, .store .UART_TX 13,
        .load .UART_STATUS 1, .store .UART_TX 10]⟩ : Uart).trace =
      txBytes (⟨6, [.load .UART_STATUS 0, .load .UART_STATUS 1, .store .UART_TX 79,
        .load .UART_STATUS 0, .load .UART_STATUS 1, .store .UART_TX 13,
        .load .UART_STATUS 0, .load .UART_STATUS 1, .store .UART_TX 10]⟩ : Uart).trace ∧
    txBytes (⟨3, [.load .UART_STATUS 1, .store .UART_TX 79,
        .load .UART_STATUS 1, .store .UART_TX 13,
        .load .UART_STATUS 1, .store .UART_TX 10]⟩ : Uart).trace =
      txBytes Uart.init.trace ++ crlfSpec [79, 10]) :=
  ⟨by decide, by decide, by decide,
    uart_puts_output_independent_of_status false [79, 10] (fun _ => 1) (fun k => k % 2) 1 2
      Uart.init _ _ (by decide) (by decide) (by decide)⟩

/-- C16: the output of `uart_puts` has no bare line feed. For a string `s`
without zero byte, in the bytes a returning run of `uart_puts(s)` transmits
every line feed comes right after a carriage return, so the first byte is
not a line feed, and their number is `len(s)` plus the number of line feeds
in `s`. With a status register that always comes ready again the run does
return, for every large enough budget of poll iterations. -/
theorem uart_puts_no_bare_lf (cs : Bool) (status : Nat → Nat) (s : List Byte) (u : Uart)
    (hz : (0 : Byte) ∉ s) (hev : EventuallyReady status) :
    (∃ fuel0 u', ∀ fuel, fuel0 ≤ fuel →
      uart_puts cs status fuel (s ++ [0]) u = .returned u') ∧
    (∀ fuel u', uart_puts cs status fuel (s ++ [0]) u = .returned u' →
      ∃ out, txBytes u'.trace = txBytes u.trace ++ out ∧
        (∀ i, out[i]? = some LF → 0 < i ∧ out[i - 1]? = some CR) ∧
        out[0]? ≠ some LF ∧
        out.length = s.length + s.count LF ∧
        (txWords u'.trace).length = (txWords u.trace).length + (s.length + s.count LF)) := by
  constructor
  · obtain ⟨fuel0, u', h, _, _⟩ := uart_puts_returns cs status hev s hz u
    exact ⟨fuel0, u', h⟩
  · intro fuel u' h
    refine ⟨crlfSpec s, uart_puts_returned_bytes cs status fuel s hz u u' h,
      fun i hi => crlfSpec_lf_after_cr s i hi, ?_, crlfSpec_length s, ?_⟩
    · intro h0
      exact absurd (crlfSpec_lf_after_cr s 0 h0).1 (Nat.lt_irrefl 0)
    · rw [uart_puts_returned_words cs status fuel s hz u u' h, List.length_append,
        List.length_map, crlfSpec_length]

theorem uart_puts_no_bare_lf_witness :
    ((0 : Byte) ∉ [10, 10, 66]) ∧ EventuallyReady (fun k => (k + 1) % 2) ∧
    ([10, 10, 66] : List Byte).length + ([10, 10, 66] : List Byte).count LF = 5 ∧
    ((∃ fuel0 u', ∀ fuel, fuel0 ≤ fuel →
      uart_puts false (fun k => (k + 1) % 2) fuel ([10, 10, 66] ++ [0]) Uart.init =
        .returned u') ∧
    (∀ fuel u',
      uart_puts false (fun k => (k + 1) % 2) fuel ([10, 10, 66] ++ [0]) Uart.init =
        .returned u' →
      ∃ out, txBytes u'.trace = txBytes Uart.init.trace ++ out ∧
        (∀ i, out[i]? = some LF → 0 < i ∧ out[i - 1]? = some CR) ∧
        out[0]? ≠ some LF ∧
        out.length = ([10, 10, 66] : List Byte).length + ([10, 10, 66] : List Byte).count LF ∧
        (txWords u'.trace).length = (txWords Uart.init.trace).length +
          (([10, 10, 66] : List Byte).length + ([10, 10, 66] : List Byte).count LF))) :=
  ⟨by decide, fun k => ⟨k % 2, by simp only []; omega⟩, by decide,
    uart_puts_no_bare_lf false (fun k => (k + 1) % 2) [10, 10, 66] Uart.init
      (by decide) (fun k => ⟨k % 2, by simp only []; omega⟩)⟩

end UartDriver
